import Mathlib

/-!
Verification of the candle data-lifecycle engine of this repository.

The embedding mirrors the TypeScript sources:
* `applyIncomingCandle` — the live-merge rule of `useKlines.ts`;
* `maxCandlesForPreset`, `toCandle`, `fetchHistorical` — `services/binance.ts`;
* `loadHistoryResolve` — the continuation of `loadHistory` in `useKlines.ts`
  after its awaited fetch settles;
* `reconnectDelayMs` — `scheduleReconnect` in `useKlines.ts`;
* `isReset` — the reset-vs-incremental decision of `PriceChart.tsx`.

JavaScript numbers that are known to be finite are modelled as `ℚ`
(or `ℤ`/`ℕ` where the source only ever holds integers); values that may
be NaN are modelled as `Option ℚ` with `none` standing for NaN.
-/

namespace Candles

/-- Bar corresponds to `CandlestickData`: one OHLC observation with a
numeric `time` (seconds since epoch).  The source's `open`/`high`/`low`/
`close` fields are named `openPrice`/`highPrice`/`lowPrice`/`closePrice`
here because `open` is a Lean keyword. -/
structure Bar where
  time : ℚ
  openPrice : ℚ
  highPrice : ℚ
  lowPrice : ℚ
  closePrice : ℚ
  deriving DecidableEq, Repr

/-- jsSliceCount computes the index JavaScript `Array.prototype.slice(start)`
starts copying from: a negative `start` counts from the end
(`max (len + start) 0`), a non-negative one is clamped to the length. -/
def jsSliceCount (len : ℕ) (start : ℤ) : ℕ :=
  (if start < 0 then max ((len : ℤ) + start) 0 else min start (len : ℤ)).toNat

/-- jsSlice models JavaScript `Array.prototype.slice(start)`: the suffix
beginning at `jsSliceCount`. -/
def jsSlice (xs : List α) (start : ℤ) : List α :=
  xs.drop (jsSliceCount xs.length start)

/-- applyIncomingCandle is the merge rule of `useKlines.ts` (lines
180–200): append-and-trim when the series is empty or the incoming bar is
newer than the last one (`[...prev, candle].slice(-cap)`), replace the
last bar when the times are equal (`[...prev.slice(0,-1), candle]`),
ignore a stale bar otherwise. -/
def applyIncomingCandle (cap : ℤ) (prev : List Bar) (candle : Bar) : List Bar :=
  match prev.getLast? with
  | none => jsSlice (prev ++ [candle]) (-cap)
  | some last =>
    if last.time < candle.time then
      jsSlice (prev ++ [candle]) (-cap)
    else if last.time = candle.time then
      prev.dropLast ++ [candle]
    else
      prev

/-- mergeSpec restates the merge rule in the words of the specification
(§4.5): append `b` and drop oldest elements until the length is at the
cap; replace the last element when times are equal; no change when the
incoming bar is older than the last one. -/
def mergeSpec (cap : ℕ) (S : List Bar) (b : Bar) : List Bar :=
  match S.getLast? with
  | none => (S ++ [b]).drop ((S ++ [b]).length - cap)
  | some last =>
    if b.time > last.time then
      (S ++ [b]).drop ((S ++ [b]).length - cap)
    else if b.time = last.time then
      S.dropLast ++ [b]
    else
      S

/-- MAX_PER_REQUEST is the provider's page-size limit (`binance.ts`). -/
def MAX_PER_REQUEST : ℤ := 1500

/-- MAX_CANDLES_CAP is the safety ceiling on fetched candles (`binance.ts`). -/
def MAX_CANDLES_CAP : ℤ := 50000

/-- HistoryPreset mirrors `types.ts`: a label and a duration in minutes,
where `none` models the JavaScript `Infinity` sentinel (fetch everything). -/
structure HistoryPreset where
  label : String
  minutes : Option ℚ
  deriving DecidableEq, Repr

/-- intervalToMinutes is the interval-to-duration record of `binance.ts`;
a lookup miss is `none`. -/
def intervalToMinutes : String → Option ℚ
  | "1m" => some 1
  | "5m" => some 5
  | "15m" => some 15
  | "1h" => some 60
  | "4h" => some 240
  | "1d" => some 1440
  | _ => none

/-- maxCandlesForPreset is the range calculator of `binance.ts`: the
interval duration defaults to 1 minute on a lookup miss (`?? 1`), an
infinite preset returns the ceiling, and otherwise the needed bar count
`Math.ceil(preset.minutes / minutes)` is clamped to the ceiling. -/
def maxCandlesForPreset (preset : HistoryPreset) (interval : String) : ℤ :=
  let minutes := (intervalToMinutes interval).getD 1
  match preset.minutes with
  | none => MAX_CANDLES_CAP
  | some m => min ⌈m / minutes⌉ MAX_CANDLES_CAP

/-- reconnectDelayMs is the reconnect delay of `scheduleReconnect` in
`useKlines.ts`: `Math.min(30000, 1000 * 2 ** Math.min(attempts, 5))`
milliseconds, computed after `attempts` has been incremented. -/
def reconnectDelayMs (attempts : ℕ) : ℕ :=
  min 30000 (1000 * 2 ^ min attempts 5)

/-- nextRetrySec is the countdown shown by `scheduleReconnect`:
`Math.round(delay / 1000)`; the delay is always a multiple of 1000, so
rounding is exact integer division here. -/
def nextRetrySec (attempts : ℕ) : ℕ :=
  reconnectDelayMs attempts / 1000

/-- closeDelaysSec lists the scheduled delays, in seconds, for `n`
consecutive close events starting from attempt counter `a` with no
intervening successful open (which would reset the counter): each close
increments the counter and then computes the delay. -/
def closeDelaysSec : ℕ → ℕ → List ℕ
  | _, 0 => []
  | a, Nat.succ n => nextRetrySec (a + 1) :: closeDelaysSec (a + 1) n

/-- HookState gathers the `useState` pieces of `useKlines.ts` that
`loadHistory` can write; `lastUpdated` holds an abstract clock value
standing for `new Date()`. -/
structure HookState where
  candles : List Bar
  historyLoading : Bool
  error : Option String
  lastUpdated : Option ℕ
  deriving DecidableEq, Repr

/-- FetchOutcome is how the awaited `fetchHistorical` call settles: a
value, a DOMException `AbortError`, or some other error whose message is
`none` when the thrown value is not an `Error` instance. -/
inductive FetchOutcome where
  | success : List Bar → FetchOutcome
  | aborted : FetchOutcome
  | failed : Option String → FetchOutcome
  deriving DecidableEq, Repr

/-- loadHistoryStart models the synchronous prefix of `loadHistory` in
`useKlines.ts`: increment the request epoch (`requestIdRef.current += 1`)
and set the loading/error state. -/
def loadHistoryStart (epoch : ℕ) (s : HookState) : ℕ × HookState :=
  (epoch + 1, { s with historyLoading := true, error := none })

/-- loadHistoryResolve models the continuation of `loadHistory` after its
awaited fetch settles: `requestId` is the id captured by this invocation
and `currentEpoch` is `requestIdRef.current` at resolution time. The try
branch stores the result only when the id is still current; an abort
error returns silently; any other error sets the message; the finally
block clears the loading flag only when the id is still current. -/
def loadHistoryResolve (requestId currentEpoch : ℕ) (outcome : FetchOutcome)
    (now : ℕ) (s : HookState) : HookState :=
  let s1 :=
    match outcome with
    | .success bars =>
      if requestId ≠ currentEpoch then s
      else { s with candles := bars, lastUpdated := some now }
    | .aborted => s
    | .failed msg =>
      { s with error := some (msg.getD "Failed to load historical data") }
  if requestId ≠ currentEpoch then s1 else { s1 with historyLoading := false }

/-- isReset is the reset-vs-incremental decision of `PriceChart.tsx`
(lines 159–167), a function of the tracking refs and the new series'
length, first time and last time. The JavaScript comparison
`lastTime < prevLastTime` coerces a null `prevLastTime` to 0, hence the
`Option.getD 0`; length arithmetic is over ℤ as in JavaScript. -/
def isReset (hydrated : Bool) (prevLen : ℕ) (prevFirstTime prevLastTime : Option ℚ)
    (newLen : ℕ) (firstTime lastTime : ℚ) : Bool :=
  !hydrated || prevLen == 0 || prevFirstTime.isNone || prevLastTime.isNone ||
    (some firstTime != prevFirstTime) ||
    decide (lastTime < prevLastTime.getD 0) ||
    decide ((newLen : ℤ) < (prevLen : ℤ) - 1) ||
    decide ((newLen : ℤ) - (prevLen : ℤ) > 1)

/-- JsValue models the JavaScript values that can appear in a raw
provider record: a finite number, NaN, a string, or `undefined` (a
missing array entry). -/
inductive JsValue where
  | num : ℚ → JsValue
  | nan : JsValue
  | str : String → JsValue
  | undef : JsValue
  deriving DecidableEq, Repr

/-- takeDigits splits off the longest run of leading decimal digits. -/
def takeDigits : List Char → List ℕ × List Char
  | [] => ([], [])
  | c :: cs =>
    if c.isDigit then
      let (ds, rest) := takeDigits cs
      ((c.toNat - 48) :: ds, rest)
    else ([], c :: cs)

/-- natOfDigits reads a digit list as a base-10 natural number. -/
def natOfDigits (ds : List ℕ) : ℕ :=
  ds.foldl (fun a d => 10 * a + d) 0

/-- parseSignedDecimal parses an optional sign, integer digits and an
optional fractional part at the head of the character list, returning the
value and the unconsumed rest, or `none` when no digit is present (the
grammar fragment of JavaScript number parsing exercised by this code;
exponents do not occur in the provider's records). -/
def parseSignedDecimal (cs : List Char) : Option ℚ × List Char :=
  let signAndRest : ℚ × List Char :=
    match cs with
    | '-' :: rest => (-1, rest)
    | '+' :: rest => (1, rest)
    | _ => (1, cs)
  let (ints, cs2) := takeDigits signAndRest.2
  let fracAndRest : List ℕ × List Char :=
    match cs2 with
    | '.' :: rest => takeDigits rest
    | _ => ([], cs2)
  if ints.isEmpty && fracAndRest.1.isEmpty then (none, cs)
  else
    (some (signAndRest.1 *
        ((natOfDigits ints : ℚ) +
          (natOfDigits fracAndRest.1 : ℚ) / 10 ^ fracAndRest.1.length)),
      fracAndRest.2)

/-- parseFloatJs models JavaScript `parseFloat`: skip leading whitespace,
parse the longest numeric prefix, NaN (`none`) when there is none;
`undefined` stringifies to `"undefined"`, which has no numeric prefix. -/
def parseFloatJs (v : JsValue) : Option ℚ :=
  match v with
  | .num q => some q
  | .nan => none
  | .undef => none
  | .str s => (parseSignedDecimal (s.toList.dropWhile Char.isWhitespace)).1

/-- toNumber models JavaScript ToNumber on these values: a trimmed empty
string is 0, otherwise the whole trimmed string must be numeric;
`undefined` and NaN give NaN (`none`). -/
def toNumber (v : JsValue) : Option ℚ :=
  match v with
  | .num q => some q
  | .nan => none
  | .undef => none
  | .str s =>
    let t := ((s.toList.dropWhile Char.isWhitespace).reverse.dropWhile
      Char.isWhitespace).reverse
    if t.isEmpty then some 0
    else
      match parseSignedDecimal t with
      | (some q, []) => some q
      | _ => none

/-- JsBar is the object literal `toCandle` returns: each field is a
JavaScript number, possibly NaN (`none`). Field names follow `Bar`. -/
structure JsBar where
  time : Option ℚ
  openPrice : Option ℚ
  highPrice : Option ℚ
  lowPrice : Option ℚ
  closePrice : Option ℚ
  deriving DecidableEq, Repr

/-- toCandle is the bar transformer of `binance.ts`: `row[0] / 1000` (a
plain JavaScript division, no flooring, with the operand coerced by
ToNumber) and `parseFloat` on the four OHLC entries; a missing entry is
`undefined`. It is total — it always returns a bar object, and malformed
fields surface as NaN (`none`), never as a thrown error. -/
def toCandle (row : List JsValue) : JsBar where
  time := (toNumber (row.getD 0 .undef)).map (· / 1000)
  openPrice := parseFloatJs (row.getD 1 .undef)
  highPrice := parseFloatJs (row.getD 2 .undef)
  lowPrice := parseFloatJs (row.getD 3 .undef)
  closePrice := parseFloatJs (row.getD 4 .undef)

/-- stopAtStart models the loop break `targetStartMs && firstOpen <=
targetStartMs` in `fetchHistorical`: `targetStartMs` is falsy when null
or 0, and the comparison is false when `firstOpen` coerces to NaN. -/
def stopAtStart (targetStartMs : Option ℚ) (firstOpen : JsValue) : Bool :=
  match targetStartMs with
  | none => false
  | some t =>
    if t = 0 then false
    else
      match toNumber firstOpen with
      | some q => decide (q ≤ t)
      | none => false

/-- timeLe is the ascending comparator `Number(a.time) - Number(b.time)`
of the final sort in `fetchHistorical`, as the sort consumes it: for two
numeric times it is the ≤ test, and when either time is NaN the
subtraction yields NaN, which ECMAScript's SortCompare treats as +0 — the
pair compares as equal, so the ≤-style comparator holds in both
directions and the stable sort keeps such a pair in place. -/
def timeLe (a b : JsBar) : Bool :=
  match a.time, b.time with
  | some x, some y => decide (x ≤ y)
  | _, _ => true

/-- timeLeNum is a proof-side total, transitive comparator that agrees
with `timeLe` on bars whose times are numbers; it is not part of the
source model, only a bridge used to reason about the sort when every
collected time is numeric. -/
def timeLeNum (a b : JsBar) : Bool :=
  decide (a.time.getD 0 ≤ b.time.getD 0)

/-- fetchGo is the pagination loop of `fetchHistorical` in `binance.ts`:
while fewer than `target` bars are collected, request a page of
`min(MAX_PER_REQUEST, remaining)` records, stop on an empty page, a page
reaching back to `targetStartMs`, or a short page, and otherwise recurse.
`pages k l` is the payload the provider returns for the `k`-th page
request issued with limit `l` (the `endTime` cursor only enters the
request URL, so it is abstracted into the request index). The second
component counts issued page requests. -/
def fetchGo (pages : ℕ → ℤ → List (List JsValue)) (targetStartMs : Option ℚ)
    (target : ℤ) (k : ℕ) (collected : List JsBar) : List JsBar × ℕ :=
  if _h : (collected.length : ℤ) < target then
    if hp : (pages k (min MAX_PER_REQUEST (target - (collected.length : ℤ)))).isEmpty then
      (collected, k + 1)
    else
      if stopAtStart targetStartMs
          (((pages k (min MAX_PER_REQUEST (target - (collected.length : ℤ)))).headD []).getD
            0 .undef) then
        (collected ++
            (pages k (min MAX_PER_REQUEST (target - (collected.length : ℤ)))).map toCandle,
          k + 1)
      else if (((pages k (min MAX_PER_REQUEST (target - (collected.length : ℤ)))).map
            toCandle).length : ℤ)
          < min MAX_PER_REQUEST (target - (collected.length : ℤ)) then
        (collected ++
            (pages k (min MAX_PER_REQUEST (target - (collected.length : ℤ)))).map toCandle,
          k + 1)
      else
        fetchGo pages targetStartMs target (k + 1)
          (collected ++
            (pages k (min MAX_PER_REQUEST (target - (collected.length : ℤ)))).map toCandle)
  else (collected, k)
termination_by (target - (collected.length : ℤ)).toNat
decreasing_by
  have h1 : 0 <
      (pages k (min MAX_PER_REQUEST (target - (collected.length : ℤ)))).length :=
    List.length_pos.mpr (by simpa using hp)
  simp only [List.length_append, List.length_map]
  omega

/-- fetchHistoricalModel is `fetchHistorical`: compute the target from
the range calculator, derive the earliest wanted timestamp from `now`
for a finite preset (`Date.now() - preset.minutes * 60 * 1000`, null for
the unbounded preset), run the pagination loop from an empty
accumulator, and sort the collected bars by time (stable merge sort with
the `timeLe` comparator, mirroring the stable JavaScript sort that
treats a NaN comparator result as equal). Returns the series and the
number of page requests issued. -/
def fetchHistoricalModel (pages : ℕ → ℤ → List (List JsValue)) (now : ℚ)
    (preset : HistoryPreset) (intv : String) : List JsBar × ℕ :=
  ((fetchGo pages (preset.minutes.map fun m => now - m * 60 * 1000)
      (maxCandlesForPreset preset intv) 0 []).1.mergeSort timeLe,
    (fetchGo pages (preset.minutes.map fun m => now - m * 60 * 1000)
      (maxCandlesForPreset preset intv) 0 []).2)

lemma jsSlice_neg_eq_drop (xs : List α) (cap : ℤ) (hcap : 1 ≤ cap) :
    jsSlice xs (-cap) = xs.drop (xs.length - cap.toNat) := by
  unfold jsSlice jsSliceCount
  rw [if_pos (show -cap < 0 by omega)]
  congr 1
  omega

/-- C1: the merge operation behaves exactly as the specification's
three-way rule — append-and-trim for a strictly newer bar (or an empty
series), replace-last for an equal time, and no change for a stale bar;
in particular a series ending at time 1700 is left unchanged by an
incoming bar with time 1650. -/
theorem applyIncomingCandle_eq_mergeSpec (cap : ℤ) (hcap : 1 ≤ cap)
    (S : List Bar) (b : Bar) :
    applyIncomingCandle cap S b = mergeSpec cap.toNat S b ∧
    (S.getLast?.map Bar.time = some 1700 → b.time = 1650 →
      applyIncomingCandle cap S b = S) := by
  constructor
  · unfold applyIncomingCandle mergeSpec
    cases h : S.getLast? with
    | none => exact jsSlice_neg_eq_drop _ _ hcap
    | some last =>
      dsimp only
      rcases lt_trichotomy last.time b.time with hlt | heq | hgt
      · rw [if_pos hlt, if_pos (show b.time > last.time from hlt)]
        exact jsSlice_neg_eq_drop _ _ hcap
      · rw [if_neg (by rw [heq]; exact lt_irrefl _), if_pos heq,
          if_neg (show ¬ b.time > last.time by rw [heq]; exact lt_irrefl _),
          if_pos heq.symm]
      · rw [if_neg (not_lt.mpr hgt.le), if_neg (ne_of_gt hgt),
          if_neg (show ¬ b.time > last.time from not_lt.mpr hgt.le),
          if_neg (ne_of_lt hgt)]
  · intro hlast hb
    unfold applyIncomingCandle
    cases h : S.getLast? with
    | none => simp [h] at hlast
    | some last =>
      have hl : last.time = 1700 := by
        simp only [h, Option.map_some] at hlast
        exact Option.some.inj hlast
      have h1 : ¬ last.time < b.time := by rw [hl, hb]; norm_num
      have h2 : ¬ last.time = b.time := by rw [hl, hb]; norm_num
      simp only [h1, h2, if_false]

lemma dropLast_append_getLast?_eq {α : Type} {S : List α} {last : α}
    (hl : S.getLast? = some last) : S.dropLast ++ [last] = S := by
  have hne : S ≠ [] := by intro h; rw [h] at hl; simp at hl
  rw [List.getLast?_eq_getLast S hne, Option.some.injEq] at hl
  rw [← hl]
  exact List.dropLast_concat_getLast hne

lemma getLast?_drop_of_ne_nil {α : Type} {xs : List α} {k : ℕ}
    (h : xs.drop k ≠ []) : (xs.drop k).getLast? = xs.getLast? := by
  conv_rhs => rw [← List.take_append_drop k xs]
  rw [List.getLast?_append]
  cases hd : (xs.drop k).getLast? with
  | none => exact absurd (List.getLast?_eq_none_iff.mp hd) h
  | some y => simp

lemma rel_dropLast_getLast {α : Type} {R : α → α → Prop} {S : List α} {last : α}
    (hp : S.Pairwise R) (hl : S.getLast? = some last) :
    ∀ a ∈ S.dropLast, R a last := by
  intro a ha
  rw [← dropLast_append_getLast?_eq hl] at hp
  exact (List.pairwise_append.mp hp).2.2 a ha last (by simp)

lemma length_jsSlice_neg (xs : List Bar) (cap : ℤ) (hcap : 1 ≤ cap) :
    ((jsSlice xs (-cap)).length : ℤ) = min (xs.length : ℤ) cap := by
  unfold jsSlice jsSliceCount
  rw [if_pos (show -cap < 0 by omega), List.length_drop]
  omega

lemma applyIncomingCandle_pairwise (cap : ℤ) (S : List Bar) (b : Bar)
    (hp : S.Pairwise (fun a b => a.time < b.time)) :
    (applyIncomingCandle cap S b).Pairwise (fun a b => a.time < b.time) := by
  unfold applyIncomingCandle
  cases h : S.getLast? with
  | none =>
    have hS : S = [] := List.getLast?_eq_none_iff.mp h
    subst hS
    exact List.Pairwise.sublist (List.drop_sublist _ _) (List.pairwise_singleton _ b)
  | some last =>
    dsimp only
    rcases lt_trichotomy last.time b.time with hlt | heq | hgt
    · rw [if_pos hlt]
      refine List.Pairwise.sublist (List.drop_sublist _ _) ?_
      refine List.pairwise_append.mpr ⟨hp, List.pairwise_singleton _ _, ?_⟩
      intro a ha c hc
      rw [List.mem_singleton] at hc
      subst hc
      rw [← dropLast_append_getLast?_eq h] at ha
      rcases List.mem_append.mp ha with ha' | ha'
      · exact lt_trans (rel_dropLast_getLast hp h a ha') hlt
      · rw [List.mem_singleton] at ha'
        subst ha'
        exact hlt
    · rw [if_neg (show ¬ last.time < b.time by rw [heq]; exact lt_irrefl _),
        if_pos heq]
      refine List.pairwise_append.mpr
        ⟨List.Pairwise.sublist (List.dropLast_sublist _) hp,
          List.pairwise_singleton _ _, ?_⟩
      intro a ha c hc
      rw [List.mem_singleton] at hc
      subst hc
      exact heq ▸ rel_dropLast_getLast hp h a ha
    · rw [if_neg (not_lt.mpr hgt.le), if_neg (ne_of_gt hgt)]
      exact hp

/-- C2: merging any sequence of incoming bars into a series whose times
strictly increase leaves a series whose times strictly increase at every
adjacent pair, hence at most one bar per distinct time value. -/
theorem merge_preserves_strict_time (cap : ℤ) (S bars : List Bar)
    (hS : S.Chain' (fun a b => a.time < b.time)) :
    (bars.foldl (applyIncomingCandle cap) S).Chain' (fun a b => a.time < b.time) := by
  haveI : IsTrans Bar (fun a b => a.time < b.time) := ⟨fun _ _ _ => lt_trans⟩
  rw [List.chain'_iff_pairwise] at hS ⊢
  induction bars generalizing S with
  | nil => exact hS
  | cons b bs ih => exact ih _ (applyIncomingCandle_pairwise cap S b hS)

/-- Witness for C2 at a concrete input: merging an out-of-order, a
duplicate-time and a fresh bar into a two-bar series keeps the times
strictly increasing. -/
theorem merge_preserves_strict_time_witness :
    (([⟨1, 9, 9, 9, 9⟩, ⟨3, 5, 5, 5, 5⟩, ⟨4, 6, 6, 6, 6⟩] : List Bar).foldl
        (applyIncomingCandle 3) [⟨1, 0, 0, 0, 0⟩, ⟨3, 0, 0, 0, 0⟩]).Chain'
      (fun a b => a.time < b.time) :=
  merge_preserves_strict_time 3 _ _
    (by simp only [List.chain'_cons, List.chain'_singleton, and_true]; norm_num)

lemma apply_after_append (cap : ℤ) (S : List Bar) (b : Bar) :
    applyIncomingCandle cap (jsSlice (S ++ [b]) (-cap)) b
      = jsSlice (S ++ [b]) (-cap) := by
  cases hL : (jsSlice (S ++ [b]) (-cap)).getLast? with
  | none =>
    have hnil : jsSlice (S ++ [b]) (-cap) = [] := List.getLast?_eq_none_iff.mp hL
    have hlen : (S ++ [b]).length ≤ jsSliceCount (S ++ [b]).length (-cap) := by
      have := congrArg List.length hnil
      rw [jsSlice, List.length_drop] at this
      simp only [List.length_nil] at this
      omega
    unfold applyIncomingCandle
    rw [hL]
    rw [hnil]
    unfold jsSlice
    apply List.drop_eq_nil_of_le
    revert hlen
    unfold jsSliceCount
    simp only [List.length_append, List.length_cons, List.length_nil]
    intro hlen
    rcases lt_or_le (-cap) 0 with hc | hc
    · rw [if_pos hc] at hlen ⊢
      omega
    · rw [if_neg (not_lt.mpr hc)] at hlen ⊢
      omega
  | some last =>
    have hne : jsSlice (S ++ [b]) (-cap) ≠ [] := by
      intro h'
      rw [h'] at hL
      simp at hL
    have hlast : last = b := by
      have h1 : (jsSlice (S ++ [b]) (-cap)).getLast? = (S ++ [b]).getLast? :=
        getLast?_drop_of_ne_nil hne
      rw [hL, List.getLast?_concat] at h1
      exact Option.some.inj h1
    subst hlast
    unfold applyIncomingCandle
    rw [hL]
    dsimp only
    rw [if_neg (lt_irrefl _), if_pos rfl]
    exact dropLast_append_getLast?_eq hL

/-- C3: the merge operation is idempotent — applying the same incoming
bar twice in succession yields the same series as applying it once, for
every capacity, series and bar. -/
theorem applyIncomingCandle_idempotent (cap : ℤ) (S : List Bar) (b : Bar) :
    applyIncomingCandle cap (applyIncomingCandle cap S b) b
      = applyIncomingCandle cap S b := by
  cases h : S.getLast? with
  | none =>
    have h1 : applyIncomingCandle cap S b = jsSlice (S ++ [b]) (-cap) := by
      unfold applyIncomingCandle
      rw [h]
    rw [h1]
    exact apply_after_append cap S b
  | some last =>
    rcases lt_trichotomy last.time b.time with hlt | heq | hgt
    · have h1 : applyIncomingCandle cap S b = jsSlice (S ++ [b]) (-cap) := by
        unfold applyIncomingCandle
        rw [h]
        dsimp only
        rw [if_pos hlt]
      rw [h1]
      exact apply_after_append cap S b
    · have h1 : applyIncomingCandle cap S b = S.dropLast ++ [b] := by
        unfold applyIncomingCandle
        rw [h]
        dsimp only
        rw [if_neg (show ¬ last.time < b.time by rw [heq]; exact lt_irrefl _),
          if_pos heq]
      rw [h1]
      unfold applyIncomingCandle
      rw [List.getLast?_concat]
      dsimp only
      rw [if_neg (lt_irrefl _), if_pos rfl, List.dropLast_concat]
    · have h1 : applyIncomingCandle cap S b = S := by
        unfold applyIncomingCandle
        rw [h]
        dsimp only
        rw [if_neg (not_lt.mpr hgt.le), if_neg (ne_of_gt hgt)]
      rw [h1]
      exact h1

lemma applyIncomingCandle_length_le (cap : ℤ) (hcap : 1 ≤ cap)
    (S : List Bar) (b : Bar) (hS : (S.length : ℤ) ≤ cap) :
    ((applyIncomingCandle cap S b).length : ℤ) ≤ cap := by
  unfold applyIncomingCandle
  cases h : S.getLast? with
  | none =>
    rw [length_jsSlice_neg _ _ hcap]
    omega
  | some last =>
    have hne : S ≠ [] := by intro h'; rw [h'] at h; simp at h
    have hpos : 0 < S.length := List.length_pos.mpr hne
    dsimp only
    rcases lt_trichotomy last.time b.time with hlt | heq | hgt
    · rw [if_pos hlt, length_jsSlice_neg _ _ hcap]
      omega
    · rw [if_neg (show ¬ last.time < b.time by rw [heq]; exact lt_irrefl _),
        if_pos heq]
      simp only [List.length_append, List.length_dropLast, List.length_cons,
        List.length_nil]
      omega
    · rw [if_neg (not_lt.mpr hgt.le), if_neg (ne_of_gt hgt)]
      exact hS

/-- C4: with the capacity cap derived from the range calculator (at least
1), merging an incoming bar into a series of length at most the cap gives
a series of length at most the cap — the length never exceeds the cap
after any append. -/
theorem seriesLength_le_cap (preset : HistoryPreset) (interval : String)
    (S : List Bar) (b : Bar)
    (hcap : 1 ≤ maxCandlesForPreset preset interval)
    (hS : (S.length : ℤ) ≤ maxCandlesForPreset preset interval) :
    ((applyIncomingCandle (maxCandlesForPreset preset interval) S b).length : ℤ)
      ≤ maxCandlesForPreset preset interval :=
  applyIncomingCandle_length_le _ hcap S b hS

/-- Witness for C4 at a concrete input: with the unbounded preset at a
1-minute interval (cap 50000), appending to a 3-bar series stays within
the cap. -/
theorem seriesLength_le_cap_witness :
    ((applyIncomingCandle (maxCandlesForPreset ⟨"All", none⟩ "1m")
        [⟨1, 0, 0, 0, 0⟩, ⟨2, 0, 0, 0, 0⟩, ⟨3, 0, 0, 0, 0⟩]
        ⟨4, 0, 0, 0, 0⟩).length : ℤ)
      ≤ maxCandlesForPreset ⟨"All", none⟩ "1m" :=
  seriesLength_le_cap ⟨"All", none⟩ "1m" _ _ (by decide) (by decide)

/-- Witness for C1 at a concrete input: a two-bar series ending at time
1700 absorbs an incoming bar with time 1650 unchanged. -/
theorem applyIncomingCandle_eq_mergeSpec_witness :
    applyIncomingCandle 2 [⟨1600, 1, 1, 1, 1⟩, ⟨1700, 2, 2, 2, 2⟩] ⟨1650, 3, 3, 3, 3⟩
      = [⟨1600, 1, 1, 1, 1⟩, ⟨1700, 2, 2, 2, 2⟩] :=
  (applyIncomingCandle_eq_mergeSpec 2 (by norm_num)
      [⟨1600, 1, 1, 1, 1⟩, ⟨1700, 2, 2, 2, 2⟩] ⟨1650, 3, 3, 3, 3⟩).2
    (by decide) (by decide)

/-- C5: when the request epoch has moved away from a history fetch's own
id by the time that fetch resolves — successfully or with an error — the
resolution never writes into the candle series: only a fetch whose id
still equals the current epoch can mutate it. -/
theorem loadHistory_epoch_discard (requestId currentEpoch : ℕ)
    (outcome : FetchOutcome) (now : ℕ) (s : HookState)
    (h : requestId ≠ currentEpoch) :
    (loadHistoryResolve requestId currentEpoch outcome now s).candles
      = s.candles := by
  unfold loadHistoryResolve
  rw [if_pos h]
  cases outcome with
  | success bars =>
    dsimp only
    rw [if_pos h]
  | aborted => rfl
  | failed msg => rfl

/-- Witness for C5 at a concrete input: a fetch tagged with id 1 resolves
while the epoch is already 2; its result is discarded and the series
stays empty. -/
theorem loadHistory_epoch_discard_witness :
    (loadHistoryResolve 1 2 (.success [⟨5, 1, 1, 1, 1⟩]) 7
        ⟨[], true, none, none⟩).candles = ([] : List Bar) :=
  loadHistory_epoch_discard 1 2 (.success [⟨5, 1, 1, 1, 1⟩]) 7
    ⟨[], true, none, none⟩ (by decide)

/-- C6: for every attempt counter value the scheduled reconnect delay is
`min(30, 2^min(attempt, 5))` seconds (stated in milliseconds), and six
consecutive close events with no intervening successful open schedule
exactly 2, 4, 8, 16, 30, 30 seconds. -/
theorem reconnect_backoff :
    (∀ attempt : ℕ,
      reconnectDelayMs attempt = 1000 * min 30 (2 ^ min attempt 5)) ∧
    closeDelaysSec 0 6 = [2, 4, 8, 16, 30, 30] := by
  constructor
  · intro a
    rcases le_or_lt a 5 with h | h
    · interval_cases a <;> decide
    · unfold reconnectDelayMs
      rw [min_eq_right (le_of_lt h)]
      decide
  · decide

/-- C8: the reset decision fires exactly when one of the spec's six
conditions holds — not yet hydrated, previous length zero, first time
changed, last time decreased, length shrank by more than one, or length
grew by more than one — given the component invariant that the tracked
first/last times are present whenever the tracked length is non-zero;
the two scenario instances from the spec are included. -/
theorem isReset_spec :
    (∀ (hydrated : Bool) (prevLen : ℕ) (pF pL : Option ℚ) (newLen : ℕ)
        (fT lT : ℚ),
      (prevLen ≠ 0 → pF.isSome = true ∧ pL.isSome = true) →
      (isReset hydrated prevLen pF pL newLen fT lT = true ↔
        (hydrated = false ∨ prevLen = 0 ∨ some fT ≠ pF ∨
          (∃ pl, pL = some pl ∧ lT < pl) ∨
          ((newLen : ℤ) < (prevLen : ℤ) - 1) ∨
          ((newLen : ℤ) - (prevLen : ℤ) > 1)))) ∧
    isReset true 100 (some 1000) (some 1099) 101 1000 1100 = false ∧
    isReset true 100 (some 1000) (some 1099) 500 500 1099 = true := by
  refine ⟨?_, by decide, by decide⟩
  intro hydrated prevLen pF pL newLen fT lT hinv
  by_cases h0 : prevLen = 0
  · subst h0
    refine ⟨fun _ => Or.inr (Or.inl rfl), fun _ => ?_⟩
    unfold isReset
    simp
  · obtain ⟨hf, hl⟩ := hinv h0
    obtain ⟨f, rfl⟩ := Option.isSome_iff_exists.mp hf
    obtain ⟨pl, rfl⟩ := Option.isSome_iff_exists.mp hl
    unfold isReset
    simp only [Bool.or_eq_true, Bool.not_eq_true', beq_iff_eq,
      Option.isNone_some, bne_iff_ne, ne_eq, Option.some.injEq,
      decide_eq_true_eq, Option.getD_some, gt_iff_lt, Bool.false_eq_true,
      or_false, false_or, exists_eq_left']
    tauto

/-- Witness for C8 at a concrete input: with no hydration yet (and length
zero), the decision is a reset. -/
theorem isReset_spec_witness :
    isReset false 0 none none 1 5 5 = true :=
  (isReset_spec.1 false 0 none none 1 5 5 (fun h => absurd rfl h)).mpr
    (Or.inl rfl)

/-- C9 counterexample: at the concrete row `[1000, "abc", 1, 1, 1]` the
transformer returns a bar whose open field is NaN instead of failing with
a MalformedRecord error, and at `[1500, 1, 1, 1, 1]` the produced time is
the exact quotient 1500/1000 = 3/2, not `floor(1500/1000) = 1`. -/
theorem toCandle_counterexample :
    (toCandle [.num 1000, .str "abc", .num 1, .num 1, .num 1]).openPrice
        = none ∧
      (toCandle [.num 1500, .num 1, .num 1, .num 1, .num 1]).time
        = some ((3 : ℚ) / 2) := by
  constructor
  · decide
  · have h : (toCandle [.num 1500, .num 1, .num 1, .num 1, .num 1]).time
        = some ((1500 : ℚ) / 1000) := rfl
    rw [h, Option.some.injEq]
    norm_num

/-- C9 amended: the transformer maps a numeric row to
`time = openTimeMs / 1000` (exact division) with OHLC taken verbatim, it
never throws — a field that fails to parse yields NaN (`none`) in the
corresponding output position, and a fully missing row yields a bar of
NaN fields. -/
theorem toCandle_amended (t o hi lo c : ℚ) (s : String)
    (hs : parseFloatJs (.str s) = none) :
    toCandle [.num t, .num o, .num hi, .num lo, .num c]
        = ⟨some (t / 1000), some o, some hi, some lo, some c⟩ ∧
      (toCandle [.num t, .str s, .num hi, .num lo, .num c]).openPrice = none ∧
      toCandle [] = ⟨none, none, none, none, none⟩ := by
  refine ⟨rfl, ?_, rfl⟩
  exact hs

/-- Witness for the amended C9 at a concrete input: the numeric row
`[1000, 1, 2, 3, 4]` maps to a bar with time 1 and verbatim OHLC, and the
row with open `"abc"` maps to a bar with NaN open. -/
theorem toCandle_amended_witness :
    toCandle [.num 1000, .num 1, .num 2, .num 3, .num 4]
        = ⟨some (1000 / 1000 : ℚ), some 1, some 2, some 3, some 4⟩ ∧
      (toCandle [.num 1000, .str "abc", .num 2, .num 3, .num 4]).openPrice
        = none ∧
      toCandle [] = ⟨none, none, none, none, none⟩ :=
  toCandle_amended 1000 1 2 3 4 "abc" (by decide)

/-- C10: the range calculator returns `min ⌈minutes / duration⌉ 50000`
for an enumerated interval, exactly 50000 for the unbounded preset, and
silently assumes a 1-minute duration for an interval outside the
enumerated set. -/
theorem maxCandlesForPreset_spec :
    (∀ (p : HistoryPreset) (i : String) (q m : ℚ),
      p.minutes = some q → intervalToMinutes i = some m →
      maxCandlesForPreset p i = min ⌈q / m⌉ 50000) ∧
    (∀ (p : HistoryPreset) (i : String),
      p.minutes = none → maxCandlesForPreset p i = 50000) ∧
    (∀ (p : HistoryPreset) (i : String) (q : ℚ),
      p.minutes = some q → intervalToMinutes i = none →
      maxCandlesForPreset p i = min ⌈q⌉ 50000) := by
  refine ⟨?_, ?_, ?_⟩
  · intro p i q m hq hi
    simp only [maxCandlesForPreset, hq, hi, Option.getD_some, MAX_CANDLES_CAP]
  · intro p i hq
    simp only [maxCandlesForPreset, hq, MAX_CANDLES_CAP]
  · intro p i q hq hi
    simp only [maxCandlesForPreset, hq, hi, Option.getD_none, div_one,
      MAX_CANDLES_CAP]

/-- Witness for C10 at a concrete input: a 500-minute preset at the
1-minute interval computes `min ⌈500/1⌉ 50000`, and the unbounded preset
computes 50000. -/
theorem maxCandlesForPreset_spec_witness :
    maxCandlesForPreset ⟨"500m", some 500⟩ "1m" = min ⌈(500 : ℚ) / 1⌉ 50000 ∧
      maxCandlesForPreset ⟨"All", none⟩ "1h" = 50000 :=
  ⟨maxCandlesForPreset_spec.1 ⟨"500m", some 500⟩ "1m" 500 1 rfl rfl,
    maxCandlesForPreset_spec.2.1 ⟨"All", none⟩ "1h" rfl⟩

lemma fetchGo_fst_length (pages : ℕ → ℤ → List (List JsValue))
    (tsm : Option ℚ) (target : ℤ)
    (hpages : ∀ n l, 0 ≤ l → ((pages n l).length : ℤ) ≤ l) :
    ∀ (k : ℕ) (collected : List JsBar),
      ((fetchGo pages tsm target k collected).1.length : ℤ)
        ≤ max target (collected.length : ℤ) := by
  intro k collected
  induction k, collected using fetchGo.induct pages tsm target with
  | case1 k c hc hp =>
    rw [fetchGo, dif_pos hc, dif_pos hp]
    simp
  | case2 k c hc hp hstop =>
    rw [fetchGo, dif_pos hc, dif_neg hp, if_pos hstop]
    have hlim := hpages k (min MAX_PER_REQUEST (target - (c.length : ℤ)))
      (by simp only [MAX_PER_REQUEST]; omega)
    simp only [List.length_append, List.length_map, MAX_PER_REQUEST] at *
    omega
  | case3 k c hc hp hstop hshort =>
    rw [fetchGo, dif_pos hc, dif_neg hp, if_neg hstop, if_pos hshort]
    have hlim := hpages k (min MAX_PER_REQUEST (target - (c.length : ℤ)))
      (by simp only [MAX_PER_REQUEST]; omega)
    simp only [List.length_append, List.length_map, MAX_PER_REQUEST] at *
    omega
  | case4 k c hc hp hstop hshort ih =>
    rw [fetchGo, dif_pos hc, dif_neg hp, if_neg hstop, if_neg hshort]
    refine le_trans ih ?_
    have hlim := hpages k (min MAX_PER_REQUEST (target - (c.length : ℤ)))
      (by simp only [MAX_PER_REQUEST]; omega)
    simp only [List.length_append, List.length_map, MAX_PER_REQUEST] at *
    omega
  | case5 k c hc =>
    rw [fetchGo, dif_neg hc]
    simp

lemma fetchGo_single_request (pages : ℕ → ℤ → List (List JsValue))
    (tsm : Option ℚ) (target : ℤ)
    (hpages : ∀ n l, 0 ≤ l → ((pages n l).length : ℤ) ≤ l)
    (h1 : 1 ≤ target) (h2 : target ≤ MAX_PER_REQUEST) :
    (fetchGo pages tsm target 0 []).2 = 1 := by
  have hc : (((List.nil : List JsBar)).length : ℤ) < target := by
    simpa using h1
  rw [fetchGo, dif_pos hc]
  split
  · rfl
  · split
    · rfl
    · split
      · rfl
      · rename_i hp hstop hshort
        rw [fetchGo]
        rw [dif_neg]
        have hlim := hpages 0
          (min MAX_PER_REQUEST (target - (((List.nil : List JsBar)).length : ℤ)))
          (by simp only [MAX_PER_REQUEST]; omega)
        simp only [List.length_append, List.length_map, List.length_nil,
          Nat.cast_zero, sub_zero, MAX_PER_REQUEST] at *
        omega

lemma fetchGo_fst_forall (pages : ℕ → ℤ → List (List JsValue))
    (tsm : Option ℚ) (target : ℤ) (P : JsBar → Prop)
    (hrows : ∀ n l, ∀ row ∈ pages n l, P (toCandle row)) :
    ∀ (k : ℕ) (collected : List JsBar), (∀ x ∈ collected, P x) →
      ∀ x ∈ (fetchGo pages tsm target k collected).1, P x := by
  intro k collected
  induction k, collected using fetchGo.induct pages tsm target with
  | case1 k c hc hp =>
    intro hcol
    rw [fetchGo, dif_pos hc, dif_pos hp]
    exact hcol
  | case2 k c hc hp hstop =>
    intro hcol x hx
    rw [fetchGo, dif_pos hc, dif_neg hp, if_pos hstop] at hx
    rcases List.mem_append.mp hx with h | h
    · exact hcol x h
    · obtain ⟨row, hrow, rfl⟩ := List.mem_map.mp h
      exact hrows k _ row hrow
  | case3 k c hc hp hstop hshort =>
    intro hcol x hx
    rw [fetchGo, dif_pos hc, dif_neg hp, if_neg hstop, if_pos hshort] at hx
    rcases List.mem_append.mp hx with h | h
    · exact hcol x h
    · obtain ⟨row, hrow, rfl⟩ := List.mem_map.mp h
      exact hrows k _ row hrow
  | case4 k c hc hp hstop hshort ih =>
    intro hcol
    rw [fetchGo, dif_pos hc, dif_neg hp, if_neg hstop, if_neg hshort]
    refine ih ?_
    intro x hx
    rcases List.mem_append.mp hx with h | h
    · exact hcol x h
    · obtain ⟨row, hrow, rfl⟩ := List.mem_map.mp h
      exact hrows k _ row hrow
  | case5 k c hc =>
    intro hcol
    rw [fetchGo, dif_neg hc]
    exact hcol

/-- C7: assuming every page request succeeds, each page holds at most
the requested limit of records, and every record carries a numeric open
time, the paginating fetch returns a series of bars with numeric times,
sorted ascending by time, of length at most the range calculator's cap
(termination is inherent in the model being a total function), and when
the cap is between 1 and the provider page limit — e.g. 500 bars at a
1-minute interval — exactly one page request is issued. -/
theorem fetchHistorical_spec (pages : ℕ → ℤ → List (List JsValue)) (now : ℚ)
    (preset : HistoryPreset) (intv : String)
    (hpages : ∀ n l, 0 ≤ l → ((pages n l).length : ℤ) ≤ l)
    (hrows : ∀ n l, ∀ row ∈ pages n l,
      (toNumber (row.getD 0 JsValue.undef)).isSome = true)
    (htarget : 0 ≤ maxCandlesForPreset preset intv) :
    (((fetchHistoricalModel pages now preset intv).1.length : ℤ)
        ≤ maxCandlesForPreset preset intv) ∧
    (∀ x ∈ (fetchHistoricalModel pages now preset intv).1,
      x.time.isSome = true) ∧
    ((fetchHistoricalModel pages now preset intv).1.Pairwise
      (fun a b => a.time.getD 0 ≤ b.time.getD 0)) ∧
    (1 ≤ maxCandlesForPreset preset intv →
      maxCandlesForPreset preset intv ≤ MAX_PER_REQUEST →
      (fetchHistoricalModel pages now preset intv).2 = 1) := by
  have hmem : ∀ x ∈ (fetchGo pages (preset.minutes.map fun m => now - m * 60 * 1000)
      (maxCandlesForPreset preset intv) 0 []).1, x.time.isSome = true := by
    refine fetchGo_fst_forall pages _ _ (fun x => x.time.isSome = true) ?_ 0 [] ?_
    · intro n l row hrow
      simpa only [toCandle, Option.isSome_map'] using hrows n l row hrow
    · intro x hx
      simp at hx
  refine ⟨?_, ?_, ?_, ?_⟩
  · have hlen := fetchGo_fst_length pages
      (preset.minutes.map fun m => now - m * 60 * 1000)
      (maxCandlesForPreset preset intv) hpages 0 []
    have hperm := List.mergeSort_perm
      (fetchGo pages (preset.minutes.map fun m => now - m * 60 * 1000)
        (maxCandlesForPreset preset intv) 0 []).1 timeLe
    unfold fetchHistoricalModel
    rw [hperm.length_eq]
    simp only [List.length_nil, Nat.cast_zero] at hlen
    omega
  · intro x hx
    unfold fetchHistoricalModel at hx
    rw [List.mem_mergeSort] at hx
    exact hmem x hx
  · have hagree : ∀ a ∈ (fetchGo pages (preset.minutes.map fun m => now - m * 60 * 1000)
        (maxCandlesForPreset preset intv) 0 []).1,
        ∀ b ∈ (fetchGo pages (preset.minutes.map fun m => now - m * 60 * 1000)
          (maxCandlesForPreset preset intv) 0 []).1,
        timeLe a b = timeLeNum (id a) (id b) := by
      intro a ha b hb
      obtain ⟨x, hx⟩ := Option.isSome_iff_exists.mp (hmem a ha)
      obtain ⟨y, hy⟩ := Option.isSome_iff_exists.mp (hmem b hb)
      simp only [timeLe, timeLeNum, hx, hy, id_eq, Option.getD_some]
    have hswap := List.map_mergeSort hagree
    rw [List.map_id, List.map_id] at hswap
    have htrans : ∀ a b c : JsBar, timeLeNum a b → timeLeNum b c → timeLeNum a c := by
      intro a b c hab hbc
      simp only [timeLeNum, decide_eq_true_eq] at *
      exact le_trans hab hbc
    have htotal : ∀ a b : JsBar, timeLeNum a b || timeLeNum b a := by
      intro a b
      simp only [timeLeNum, Bool.or_eq_true, decide_eq_true_eq]
      exact le_total _ _
    have hsorted := List.sorted_mergeSort htrans htotal
      (fetchGo pages (preset.minutes.map fun m => now - m * 60 * 1000)
        (maxCandlesForPreset preset intv) 0 []).1
    unfold fetchHistoricalModel
    rw [hswap]
    refine hsorted.imp ?_
    intro a b hab
    simpa only [timeLeNum, decide_eq_true_eq] using hab
  · intro hge hle
    unfold fetchHistoricalModel
    exact fetchGo_single_request pages
      (preset.minutes.map fun m => now - m * 60 * 1000)
      (maxCandlesForPreset preset intv) hpages hge hle

/-- Witness for C7 at a concrete input: a 500-minute preset at the
1-minute interval (cap 500, below the 1500 page limit) against a
provider with no data returns at most 500 bars after exactly one page
request. -/
theorem fetchHistorical_spec_witness :
    (((fetchHistoricalModel (fun _ _ => []) 0 ⟨"500m", some 500⟩ "1m").1.length : ℤ)
        ≤ maxCandlesForPreset ⟨"500m", some 500⟩ "1m") ∧
      (fetchHistoricalModel (fun _ _ => []) 0 ⟨"500m", some 500⟩ "1m").2 = 1 := by
  have hcap : maxCandlesForPreset ⟨"500m", some 500⟩ "1m" = 500 := by
    have h1 : intervalToMinutes "1m" = some 1 := rfl
    simp only [maxCandlesForPreset, h1, Option.getD_some, MAX_CANDLES_CAP]
    norm_num
  have h := fetchHistorical_spec (fun _ _ => []) 0 ⟨"500m", some 500⟩ "1m"
    (fun n l hl => by simpa using hl)
    (fun n l row hrow => by simp at hrow)
    (by rw [hcap]; norm_num)
  exact ⟨h.1, h.2.2.2 (by rw [hcap]; norm_num)
    (by rw [hcap]; simp only [MAX_PER_REQUEST]; norm_num)⟩

end Candles
